import Mathlib

/-!
Verification of the hyper-torus GFlowNet environment (`gflownet/envs/htorus.py`)
and the numeric utility helpers (`gflownet/utils/common.py`).

Modelling conventions:
* Python floats are modelled as exact rationals (`ℚ`); every IEEE-754 double is
  a rational number, and the spec's claims are about the ideal arithmetic the
  floats approximate.
* `2 * np.pi` is the exact rational value of the IEEE-754 double `2 * np.pi`.
* Python's `%` on floats with a positive modulus is `x - y * ⌊x / y⌋`.
* A Python list is a `List ℚ`; `state[-1]` reads the last element and
  `state[i]` with an in-range index reads element `i`.  Mutation of a list in
  place is modelled by returning the list's content after the call.
* The environment instance is a record of the attributes that the translated
  methods read or write: `n_dim`, `length_traj`, `state`, `n_actions`, `done`.
-/

namespace GFlowNet

/-- Exact rational value of the IEEE-754 double `2 * np.pi`
(`np.pi` as a double is `884279719003555 / 2^48`). -/
def twoPi : ℚ := 884279719003555 / 140737488355328

/-- Exact rational value of the IEEE-754 double `np.pi`. -/
def piQ : ℚ := 884279719003555 / 281474976710656

/-- Python float modulo `x % y` for a positive modulus: `x - y * ⌊x / y⌋`. -/
def fmod (x y : ℚ) : ℚ := x - y * ⌊x / y⌋

/-- Read `l[-1]` of a Python list (default 0 for the empty list, which in the
source would raise; all call sites are used with nonempty lists). -/
def pyLast (l : List ℚ) : ℚ := l.getD (l.length - 1) 0

/-- Write `l[-1] = v` on a Python list. -/
def pySetLast (l : List ℚ) (v : ℚ) : List ℚ := l.set (l.length - 1) v

/-- Environment instance: the attributes of `HybridTorus` that the stepping,
mask, and parent methods read or write.  `state` is the concatenation of the
angles and the step counter, as in the source. -/
structure Env where
  n_dim : ℕ
  length_traj : ℕ
  state : List ℚ
  n_actions : ℕ
  done : Bool
deriving Repr, DecidableEq

/-- Index of the end-of-sequence (terminal) action: `self.eos = self.n_dim`. -/
def Env.eos (e : Env) : ℕ := e.n_dim

/-- The source state snapshot `self.source = self.angles.copy()` taken right
after `reset()`: a list of `n_dim` zero angles. -/
def Env.source (e : Env) : List ℚ := List.replicate e.n_dim 0

/-- Method `reset`: all angles zero, `n_actions = 0`,
`state = angles + [n_actions]`, `done = False`. -/
def reset (n_dim length_traj : ℕ) : Env :=
  { n_dim := n_dim
    length_traj := length_traj
    state := List.replicate n_dim 0 ++ [0]
    n_actions := 0
    done := false }

/-- An action `(dimension, magnitude)`. -/
abbrev Action := ℕ × ℚ

/-- Method `step`: executes an action.  Returns the updated environment together with
the triple `(self.state, action, valid)` that the Python method returns. -/
def step (e : Env) (action : Action) : Env × (List ℚ × Action × Bool) :=
  if e.done then
    (e, (e.state, action, false))
  else if e.n_actions = e.length_traj then
    let e' : Env := { e with done := true, n_actions := e.n_actions + 1 }
    (e', (e'.state, (e.eos, 0), true))
  else if action.1 ≠ e.eos then
    let n' := e.n_actions + 1
    let st := e.state.set action.1 (fmod (e.state.getD action.1 0 + action.2) twoPi)
    let st' := pySetLast st (n' : ℚ)
    let e' : Env := { e with n_actions := n', state := st' }
    (e', (e'.state, action, true))
  else
    (e, (e.state, action, false))

/-- Run a sequence of `step` calls from an environment. -/
def run (e : Env) : List Action → Env
  | [] => e
  | a :: rest => run (step e a).1 rest

/-- Inductive invariant carried by every environment reachable from `reset`:
the state has `n_dim` angle components in `[0, 2π)` followed by a natural
counter at most `length_traj`, and while the trajectory is not done the
counter component mirrors the `n_actions` attribute. -/
def Inv (e : Env) : Prop :=
  e.state.length = e.n_dim + 1 ∧
  (∀ i, i < e.n_dim → 0 ≤ e.state.getD i 0 ∧ e.state.getD i 0 < twoPi) ∧
  (∃ k : ℕ, k ≤ e.length_traj ∧ e.state.getD e.n_dim 0 = (k : ℚ)) ∧
  (e.done = false → e.n_actions ≤ e.length_traj ∧
    e.state.getD e.n_dim 0 = (e.n_actions : ℚ))

/-- Method `get_mask_invalid_actions_forward` with explicit `state` and `done`
arguments.  The mask has one entry per action (`n_dim + 1` entries); `True`
means invalid. -/
def get_mask_invalid_actions_forward (e : Env) (state : List ℚ) (done : Bool) :
    List Bool :=
  if done then
    List.replicate (e.n_dim + 1) true
  else if (e.length_traj : ℚ) ≤ pyLast state then
    (List.replicate (e.n_dim + 1) true).set e.n_dim false
  else
    (List.replicate (e.n_dim + 1) false).set e.n_dim true

/-- Method `get_mask_invalid_actions_backward` with explicit `state` and `done`
arguments (`parents_a` is unused by the source).  `noninit` is the number of
dimensions whose angle differs from the source snapshot. -/
def get_mask_invalid_actions_backward (e : Env) (state : List ℚ) (done : Bool) :
    List Bool :=
  let mask : List Bool :=
    if done then (List.replicate (e.n_dim + 1) true).set e.n_dim false
    else (List.replicate (e.n_dim + 1) false).set e.n_dim true
  let noninit :=
    ((state.dropLast.zip e.source).filter (fun p => p.1 ≠ p.2)).length
  if (noninit : ℚ) > pyLast state then
    mask
  else if (noninit : ℚ) = pyLast state ∧ (noninit : ℚ) ≥ pyLast state - 1 then
    ((mask.zip (state.dropLast.zip e.source)).map
        (fun p => if p.2.1 = p.2.2 then true else p.1))
      ++ [mask.getD (mask.length - 1) true]
  else
    mask

/-- Method `get_parents` with explicit `state`, `done` and `action` arguments.  The
Python method mutates the supplied list in place and returns `([state],
[action])`; the second component of the result is the content of the caller's
list after the call (the mutation frame effect). -/
def get_parents (e : Env) (state : List ℚ) (done : Bool) (action : Action) :
    (List (List ℚ) × List Action) × List ℚ :=
  if done then
    (([state], [(e.eos, 0)]), state)
  else
    let s1 := state.set action.1 (fmod (state.getD action.1 0 - action.2) twoPi)
    let s2 := pySetLast s1 (pyLast s1 - 1)
    (([s2], [action]), s2)

/-- Strided slice `l[start::step]` of a Python list (used for the interleaved
policy-output layout `policy_outputs[:, start::n_params_per_dim]`). -/
def strideSlice (l : List ℚ) (start step : ℕ) : List ℚ :=
  (List.range l.length).filterMap
    (fun i => if start ≤ i ∧ (i - start) % step = 0 then some (l.getD i 0) else none)

/-- The von Mises concentration floor `self.vonmises_concentration_epsilon`. -/
def vmEps : ℚ := 1 / 1000

/-- Masked logits `logits[mask] = -loginf` applied elementwise to one row. -/
def maskLogits (logits : List ℚ) (mask : Option (List Bool)) (loginf : ℚ) :
    List ℚ :=
  match mask with
  | none => logits
  | some m => List.zipWith (fun x b => if b then -loginf else x) logits m

/-- Log-probability that `sample_actions` (with `sampling_method="policy"`)
returns for one batch row, given the dimension `dim` and angle `angle` that the
sampler drew for that row.  The distribution engines of the tensor library are
parameters: `lsm` is `LogSoftmax(dim=1)` on one row, `fexp` is `torch.exp`, and
`vmlp loc conc x` is `VonMises(loc, conc).log_prob(x)`.  Translated from
`HybridTorus.sample_actions`: the dimension logits are `po[0::npd]` divided by
the temperature and then masked; the angle term is the von Mises log-density at
`(po[1::npd][dim], exp(po[2::npd][dim]) + eps)` for a row whose sampled
dimension is not the terminal index. -/
def sample_actions_logprob (npd eos : ℕ) (lsm : List ℚ → List ℚ)
    (fexp : ℚ → ℚ) (vmlp : ℚ → ℚ → ℚ → ℚ) (po : List ℚ)
    (mask : Option (List Bool)) (temperature loginf : ℚ)
    (dim : ℕ) (angle : ℚ) : ℚ :=
  let logits := maskLogits ((strideSlice po 0 npd).map (fun x => x / temperature))
    mask loginf
  let lpdim := (lsm logits).getD dim 0
  let lpangle :=
    if dim ≠ eos then
      vmlp ((strideSlice po 1 npd).getD dim 0)
        (fexp ((strideSlice po 2 npd).getD dim 0) + vmEps) angle
    else 0
  lpdim + lpangle

/-- Log-probability that `get_logprobs` computes for one batch row, translated
clause by clause from `HybridTorus.get_logprobs`: the same masked dimension
logits (no temperature division), the `nofix` gating
`(nsource_ne_nsteps | angledim_ne_source | is_forward) & noeos` for the angle
term, and the Bernoulli `nosource` term only when `n_params_per_dim == 4` and
the direction is backward.  `blp logit x` is
`Bernoulli(logits=logit).log_prob(x)`. -/
def get_logprobs_one (npd eos : ℕ) (lsm : List ℚ → List ℚ)
    (fexp : ℚ → ℚ) (vmlp : ℚ → ℚ → ℚ → ℚ) (blp : ℚ → ℚ → ℚ)
    (source : List ℚ) (is_forward : Bool) (po : List ℚ)
    (dim : ℕ) (angle : ℚ) (state_target : List ℚ)
    (mask : Option (List Bool)) (loginf : ℚ) : ℚ :=
  let logits := maskLogits (strideSlice po 0 npd) mask loginf
  let lpdim := (lsm logits).getD dim 0
  let source_aux := source ++ [-1]
  let nsource_ne_nsteps : Bool :=
    decide (((((state_target.dropLast.zip source).filter
      (fun p => p.1 ≠ p.2)).length : ℚ)) ≠ pyLast state_target)
  let angledim_ne_source : Bool :=
    decide (state_target.getD dim 0 ≠ source_aux.getD dim 0)
  let noeos : Bool := decide (dim ≠ eos)
  let nofix : Bool := ((nsource_ne_nsteps || angledim_ne_source) || is_forward)
    && noeos
  let lpangle :=
    if nofix then
      vmlp ((strideSlice po 1 npd).getD dim 0)
        (fexp ((strideSlice po 2 npd).getD dim 0) + vmEps) angle
    else 0
  let lpnosource :=
    if nofix && (decide (npd = 4) && !is_forward) then
      blp ((strideSlice po 3 npd).getD dim 0)
        (if angledim_ne_source then 1 else 0)
    else 0
  lpdim + lpangle + lpnosource

/-- Python `int(x)`: truncation toward zero. -/
def pyInt (x : ℚ) : ℤ := if 0 ≤ x then ⌊x⌋ else ⌈x⌉

/-- Denotation of the readable string `"[a1 a2 ... an] | k"`: the list of
angles in degrees and the integer step count.  The decimal rendering of the
numbers is abstracted: a readable value stands for the numbers the string
displays. -/
structure Readable where
  degrees : List ℚ
  n_actions : ℤ
deriving Repr, DecidableEq

/-- Method `state2readable`: converts the angles to degrees (`* 180 / np.pi`) and
takes `int(state[-1])` as the step count. -/
def state2readable (state : List ℚ) : Readable :=
  { degrees := state.dropLast.map (fun a => a * 180 / piQ)
    n_actions := pyInt (pyLast state) }

/-- Method `readable2state`: converts the degrees back to radians (`* np.pi / 180`)
and appends the step count. -/
def readable2state (r : Readable) : List ℚ :=
  r.degrees.map (fun d => d * piQ / 180) ++ [(r.n_actions : ℚ)]

/-- Torch floating dtypes returned by `set_float_precision`. -/
inductive TorchDtype where
  | float16
  | float32
  | float64
deriving Repr, DecidableEq

/-- Function `set_float_precision` from `gflownet/utils/common.py`: `raise ValueError`
is modelled as `Except.error`. -/
def set_float_precision (precision : ℤ) : Except String TorchDtype :=
  if precision = 16 then .ok .float16
  else if precision = 32 then .ok .float32
  else if precision = 64 then .ok .float64
  else .error "Precision must be one of [16, 32, 64]"

/-- Function `set_device`: returns the cuda device only when asked for cuda and cuda is
available; never raises. -/
def set_device (device : String) (cuda_available : Bool) : Except String String :=
  if device.toLower = "cuda" && cuda_available then .ok "cuda" else .ok "cpu"

/-- Function `torch2np`: moves a tensor off the accelerator and wraps it as an array;
pure data movement, never raises. -/
def torch2np (x : α) : Except String α := .ok x

/-- Values of a nested configuration dictionary. -/
inductive ConfigVal where
  | leaf : String → ConfigVal
  | node : List (String × ConfigVal) → ConfigVal

/-- Function `flatten_config`: flattens a nested dictionary, joining keys with `sep`;
total, never raises. -/
def flatten_config (d : List (String × ConfigVal)) (parent_key : String)
    (sep : String) : List (String × ConfigVal) :=
  match d with
  | [] => []
  | (k, v) :: rest =>
    let new_key := if parent_key ≠ "" then parent_key ++ sep ++ k else k
    (match v with
      | .leaf s => [(new_key, .leaf s)]
      | .node d2 => flatten_config d2 new_key sep)
    ++ flatten_config rest parent_key sep
termination_by sizeOf d
decreasing_by
  all_goals simp_wf
  all_goals omega

/-- Concrete already-done environment used to evaluate theorems. -/
def envDoneEx : Env :=
  { n_dim := 2, length_traj := 2, state := [0, 0, 1], n_actions := 1, done := true }

/-- Concrete environment whose counter has reached `length_traj`. -/
def envForcedEx : Env :=
  { n_dim := 2, length_traj := 2, state := [0, 0, 2], n_actions := 2, done := false }

/-- Concrete mid-trajectory environment. -/
def envMidEx : Env :=
  { n_dim := 2, length_traj := 2, state := [0, 0, 1], n_actions := 1, done := false }

theorem twoPi_pos : 0 < twoPi := by norm_num [twoPi]

theorem piQ_ne_zero : piQ ≠ 0 := by norm_num [piQ]

theorem fmod_nonneg (x y : ℚ) (hy : 0 < y) : 0 ≤ fmod x y := by
  have h : (⌊x / y⌋ : ℚ) ≤ x / y := Int.floor_le (x / y)
  have h2 : (⌊x / y⌋ : ℚ) * y ≤ x := (le_div_iff₀ hy).mp h
  unfold fmod
  linarith

theorem fmod_lt (x y : ℚ) (hy : 0 < y) : fmod x y < y := by
  have h : x / y < (⌊x / y⌋ : ℚ) + 1 := Int.lt_floor_add_one (x / y)
  have h2 : x < ((⌊x / y⌋ : ℚ) + 1) * y := (div_lt_iff₀ hy).mp h
  have h3 : ((⌊x / y⌋ : ℚ) + 1) * y = y * ⌊x / y⌋ + y := by ring
  unfold fmod
  linarith

theorem getD_set_eq {α : Type} (d : α) : ∀ (l : List α) (i : ℕ) (v : α),
    i < l.length → (l.set i v).getD i d = v
  | _ :: _, 0, _, _ => rfl
  | _ :: t, n + 1, v, h => getD_set_eq d t n v (by simpa using h)
  | [], _, _, h => by simp at h

theorem getD_set_ne {α : Type} (d : α) : ∀ (l : List α) (i j : ℕ) (v : α),
    i ≠ j → (l.set i v).getD j d = l.getD j d
  | [], _, _, _, _ => by simp
  | _ :: _, 0, 0, _, h => absurd rfl h
  | _ :: _, 0, _ + 1, _, _ => rfl
  | _ :: _, _ + 1, 0, _, _ => rfl
  | _ :: t, n + 1, m + 1, v, h => getD_set_ne d t n m v (fun hc => h (by simp [hc]))

theorem getD_replicate {α : Type} (d : α) : ∀ (n i : ℕ) (x : α), i < n →
    (List.replicate n x).getD i d = x
  | _ + 1, 0, _, _ => rfl
  | n + 1, i + 1, x, h => getD_replicate d n i x (by omega)

theorem getD_append_left {α : Type} (d : α) : ∀ (l m : List α) (i : ℕ),
    i < l.length → (l ++ m).getD i d = l.getD i d
  | _ :: _, _, 0, _ => rfl
  | _ :: t, m, i + 1, h => getD_append_left d t m i (by simpa using h)
  | [], _, _, h => by simp at h

theorem getD_append_at_length {α : Type} (d : α) : ∀ (l : List α) (x : α),
    (l ++ [x]).getD l.length d = x
  | [], _ => rfl
  | _ :: t, x => getD_append_at_length d t x

theorem length_pySetLast (l : List ℚ) (v : ℚ) :
    (pySetLast l v).length = l.length := by
  simp [pySetLast]

theorem pyLast_pySetLast (l : List ℚ) (v : ℚ) (h : l ≠ []) :
    pyLast (pySetLast l v) = v := by
  have hl : 0 < l.length := List.length_pos.mpr h
  unfold pyLast pySetLast
  rw [List.length_set]
  exact getD_set_eq 0 l (l.length - 1) v (by omega)

theorem getD_pySetLast_ne (l : List ℚ) (v : ℚ) (i : ℕ) (h : i ≠ l.length - 1) :
    (pySetLast l v).getD i 0 = l.getD i 0 :=
  getD_set_ne 0 l (l.length - 1) i v (fun hc => h hc.symm)

theorem replicate_succ_set_last (n : ℕ) (x y : Bool) :
    (List.replicate (n + 1) x).set n y = List.replicate n x ++ [y] := by
  induction n with
  | zero => rfl
  | succ m ih =>
    show x :: (List.replicate (m + 1) x).set m y = x :: (List.replicate m x ++ [y])
    rw [ih]

/-- C1: `step` performs the four-way case analysis of the spec: a done
environment is unchanged and reports invalid; a step counter equal to
`length_traj` forces termination (done marked, counter incremented, terminal
action returned, valid) regardless of the supplied action; a non-terminal
action with the counter below `length_traj` wraps the incremented angle into
`[0, 2π)` via the modulo, increments the counter, and is valid; a terminal
action below `length_traj` is rejected with the environment unchanged. -/
theorem step_case_analysis (e : Env) (a : Action) :
    (e.done = true → step e a = (e, (e.state, a, false))) ∧
    (e.done = false → e.n_actions = e.length_traj →
      step e a = ({ e with done := true, n_actions := e.n_actions + 1 },
        (e.state, (e.eos, 0), true))) ∧
    (e.done = false → e.n_actions < e.length_traj → a.1 ≠ e.eos →
      step e a =
        ({ e with
            n_actions := e.n_actions + 1
            state := pySetLast
              (e.state.set a.1 (fmod (e.state.getD a.1 0 + a.2) twoPi))
              ((e.n_actions + 1 : ℕ) : ℚ) },
          (pySetLast (e.state.set a.1 (fmod (e.state.getD a.1 0 + a.2) twoPi))
            ((e.n_actions + 1 : ℕ) : ℚ), a, true))) ∧
    (e.done = false → e.n_actions < e.length_traj → a.1 = e.eos →
      step e a = (e, (e.state, a, false))) := by
  refine ⟨fun h1 => ?_, fun h1 h2 => ?_, fun h1 h2 h3 => ?_, fun h1 h2 h3 => ?_⟩
  · simp [step, h1]
  · simp [step, h1, h2]
  · simp [step, h1, Nat.ne_of_lt h2, h3]
  · simp [step, h1, Nat.ne_of_lt h2, h3]

/-- Witness for C1: the four cases evaluated on concrete environments with
`n_dim = 2`, `length_traj = 2`. -/
theorem step_case_analysis_witness :
    step envDoneEx (0, 1) = (envDoneEx, ([0, 0, 1], (0, 1), false)) ∧
    step envForcedEx (0, 1) =
      ({ envForcedEx with done := true, n_actions := 3 }, ([0, 0, 2], (2, 0), true)) ∧
    step envMidEx (0, 1) =
      ({ envMidEx with n_actions := 2, state := [1, 0, 2] }, ([1, 0, 2], (0, 1), true)) ∧
    step envMidEx (2, 0) = (envMidEx, ([0, 0, 1], (2, 0), false)) := by
  refine ⟨(step_case_analysis _ _).1 rfl, ?_, ?_, ?_⟩
  · rw [(step_case_analysis _ (0, 1)).2.1 rfl rfl]
    decide
  · rw [(step_case_analysis _ (0, 1)).2.2.1 rfl (by decide) (by decide)]
    have hf : fmod (0 + 1) twoPi = 1 := by norm_num [fmod, twoPi]
    simp only [envMidEx]
    simp only [List.getD, List.set, List.get?, Option.getD, pySetLast, List.length]
    rw [hf]
    norm_num
  · exact (step_case_analysis _ (2, 0)).2.2.2 rfl (by decide) rfl

/-- C10: on the forced-termination branch of `step` (not done, counter equal
to `length_traj`) the state list is left unchanged while the `n_actions`
attribute is incremented to `length_traj + 1`; hence if the trailing state
component was `length_traj` it disagrees with `n_actions` afterwards. -/
theorem step_forced_termination_frame (e : Env) (a : Action)
    (h1 : e.done = false) (h2 : e.n_actions = e.length_traj) :
    (step e a).1.state = e.state ∧
    (step e a).1.n_actions = e.length_traj + 1 ∧
    (pyLast e.state = (e.length_traj : ℚ) →
      pyLast (step e a).1.state ≠ ((step e a).1.n_actions : ℚ)) := by
  have hs : (step e a).1 = { e with done := true, n_actions := e.n_actions + 1 } := by
    simp [step, h1, h2]
  refine ⟨by rw [hs], by rw [hs]; simpa using h2, fun hc => ?_⟩
  rw [hs]
  show pyLast e.state ≠ ((e.n_actions + 1 : ℕ) : ℚ)
  rw [hc, h2]
  intro hq
  have : (e.length_traj : ℚ) = ((e.length_traj + 1 : ℕ) : ℚ) := by exact_mod_cast hq
  have : e.length_traj = e.length_traj + 1 := by exact_mod_cast this
  omega

/-- Witness for C10: forced termination on a concrete environment. -/
theorem step_forced_termination_frame_witness :
    (step envForcedEx (0, 1)).1.state = [0, 0, 2] ∧
    (step envForcedEx (0, 1)).1.n_actions = 3 ∧
    pyLast (step envForcedEx (0, 1)).1.state ≠ ((step envForcedEx (0, 1)).1.n_actions : ℚ) := by
  have h := step_forced_termination_frame envForcedEx (0, 1) rfl rfl
  exact ⟨h.1, h.2.1, h.2.2 (by decide)⟩

/-- C2 counterexample: with `n_dim = 2`, `length_traj = 1`, at state
`[0, 0, 1]` with `done = True` the forward mask is all-`True` — the terminal
action is marked invalid, not "the only valid action" as the claim states for
every done trajectory. -/
theorem forward_mask_done_counterexample :
    get_mask_invalid_actions_forward (reset 2 1) [0, 0, 1] true = [true, true, true] ∧
    get_mask_invalid_actions_forward (reset 2 1) [0, 0, 1] true ≠ [true, true, false] := by
  constructor
  · decide
  · decide

/-- C2 amended: when `done` is `True` the forward mask marks every action,
the terminal one included, invalid; when `done` is `False` and the step
counter has reached `length_traj` the terminal action is the only valid one;
otherwise all non-terminal actions are valid and the terminal action is
invalid.  With `n_dim = 2`, `length_traj = 1` the mask at state `[0, 0, 1]`
with `done = False` is `[True, True, False]`. -/
theorem forward_mask_spec (e : Env) (state : List ℚ) (done : Bool) :
    (done = true → get_mask_invalid_actions_forward e state done =
      List.replicate (e.n_dim + 1) true) ∧
    (done = false → (e.length_traj : ℚ) ≤ pyLast state →
      (∀ i, i < e.n_dim →
        (get_mask_invalid_actions_forward e state done).getD i false = true) ∧
      (get_mask_invalid_actions_forward e state done).getD e.n_dim true = false) ∧
    (done = false → pyLast state < (e.length_traj : ℚ) →
      (∀ i, i < e.n_dim →
        (get_mask_invalid_actions_forward e state done).getD i true = false) ∧
      (get_mask_invalid_actions_forward e state done).getD e.n_dim false = true) ∧
    get_mask_invalid_actions_forward (reset 2 1) [0, 0, 1] false =
      [true, true, false] := by
  refine ⟨fun h1 => ?_, fun h1 h2 => ?_, fun h1 h2 => ?_, by decide⟩
  · simp [get_mask_invalid_actions_forward, h1]
  · have hm : get_mask_invalid_actions_forward e state done =
        (List.replicate (e.n_dim + 1) true).set e.n_dim false := by
      simp [get_mask_invalid_actions_forward, h1, h2]
    rw [hm]
    constructor
    · intro i hi
      rw [show (List.replicate (e.n_dim + 1) true).set e.n_dim false =
          List.replicate e.n_dim true ++ [false] from replicate_succ_set_last _ _ _]
      rw [List.getD_eq_getElem _ _ (by simp; omega)]
      rw [List.getElem_append_left (by simpa using hi)]
      simp
    · rw [show (List.replicate (e.n_dim + 1) true).set e.n_dim false =
          List.replicate e.n_dim true ++ [false] from replicate_succ_set_last _ _ _]
      rw [List.getD_eq_getElem _ _ (by simp)]
      rw [List.getElem_append_right (by simp)]
      simp
  · have hm : get_mask_invalid_actions_forward e state done =
        (List.replicate (e.n_dim + 1) false).set e.n_dim true := by
      simp [get_mask_invalid_actions_forward, h1, not_le.mpr h2]
    rw [hm, replicate_succ_set_last]
    constructor
    · intro i hi
      rw [List.getD_eq_getElem _ _ (by simp; omega)]
      rw [List.getElem_append_left (by simpa using hi)]
      simp
    · rw [List.getD_eq_getElem _ _ (by simp)]
      rw [List.getElem_append_right (by simp)]
      simp

/-- Witness for C2's amended theorem: concrete masks for a done trajectory, a
counter at the limit, and a mid-trajectory state. -/
theorem forward_mask_spec_witness :
    get_mask_invalid_actions_forward (reset 2 1) [0, 0, 0] true = [true, true, true] ∧
    (get_mask_invalid_actions_forward (reset 2 1) [0, 0, 1] false).getD 0 false = true ∧
    (get_mask_invalid_actions_forward (reset 2 1) [0, 0, 1] false).getD 2 true = false ∧
    (get_mask_invalid_actions_forward (reset 2 1) [0, 0, 0] false).getD 0 true = false ∧
    (get_mask_invalid_actions_forward (reset 2 1) [0, 0, 0] false).getD 2 false = true := by
  have h1 := (forward_mask_spec (reset 2 1) [0, 0, 0] true).1 rfl
  have h2 := (forward_mask_spec (reset 2 1) [0, 0, 1] false).2.1 rfl (by decide)
  have h3 := (forward_mask_spec (reset 2 1) [0, 0, 0] false).2.2.1 rfl (by decide)
  exact ⟨h1, h2.1 0 (by decide), h2.2, h3.1 0 (by decide), h3.2⟩

theorem step_preserves_params (e : Env) (a : Action) :
    (step e a).1.n_dim = e.n_dim ∧ (step e a).1.length_traj = e.length_traj := by
  constructor <;> (unfold step; split_ifs <;> rfl)

theorem run_preserves_params (acts : List Action) (e : Env) :
    (run e acts).n_dim = e.n_dim ∧ (run e acts).length_traj = e.length_traj := by
  induction acts generalizing e with
  | nil => exact ⟨rfl, rfl⟩
  | cons a rest ih =>
    have h := step_preserves_params e a
    have h2 := ih (step e a).1
    exact ⟨h2.1.trans h.1, h2.2.trans h.2⟩

theorem inv_reset (n d : ℕ) : Inv (reset n d) := by
  have hcnt : (List.replicate n (0 : ℚ) ++ [0]).getD n 0 = ((0 : ℕ) : ℚ) := by
    have h := getD_append_at_length 0 (List.replicate n (0 : ℚ)) 0
    rw [List.length_replicate] at h
    rw [h]
    norm_num
  have hang : ∀ i, i < n → (0 : ℚ) ≤ (List.replicate n (0 : ℚ) ++ [0]).getD i 0 ∧
      (List.replicate n (0 : ℚ) ++ [0]).getD i 0 < twoPi := by
    intro i hi
    rw [getD_append_left 0 _ _ i (by simpa using hi), getD_replicate 0 n i 0 hi]
    exact ⟨le_refl 0, twoPi_pos⟩
  exact ⟨by simp [reset], hang, ⟨0, Nat.zero_le d, hcnt⟩, fun _ => ⟨Nat.zero_le d, hcnt⟩⟩

theorem inv_step (e : Env) (a : Action) (h : Inv e) : Inv (step e a).1 := by
  obtain ⟨hlen, hang, ⟨k, hk, hcnt⟩, hsync⟩ := h
  by_cases hd : e.done = true
  · have hs : (step e a).1 = e := by simp [step, hd]
    rw [hs]
    exact ⟨hlen, hang, ⟨k, hk, hcnt⟩, hsync⟩
  · have hd' : e.done = false := by simpa using hd
    by_cases hn : e.n_actions = e.length_traj
    · have hs : (step e a).1 = { e with done := true, n_actions := e.n_actions + 1 } := by
        simp [step, hd', hn]
      rw [hs]
      exact ⟨hlen, hang, ⟨k, hk, hcnt⟩, fun hc => by simp at hc⟩
    · by_cases ha : a.1 = e.eos
      · have hs : (step e a).1 = e := by simp [step, hd', hn, ha]
        rw [hs]
        exact ⟨hlen, hang, ⟨k, hk, hcnt⟩, hsync⟩
      · have hlt : e.n_actions < e.length_traj :=
          Nat.lt_of_le_of_ne (hsync hd').1 hn
        have hs : (step e a).1 =
            { e with
                n_actions := e.n_actions + 1
                state := pySetLast
                  (e.state.set a.1 (fmod (e.state.getD a.1 0 + a.2) twoPi))
                  ((e.n_actions + 1 : ℕ) : ℚ) } := by
          simp [step, hd', hn, ha]
        rw [hs]
        set st := e.state.set a.1 (fmod (e.state.getD a.1 0 + a.2) twoPi) with hst
        have hstlen : st.length = e.n_dim + 1 := by
          rw [hst, List.length_set, hlen]
        have hlast : st.length - 1 = e.n_dim := by omega
        have hsetD : ∀ i, i < e.n_dim →
            (pySetLast st ((e.n_actions + 1 : ℕ) : ℚ)).getD i 0 = st.getD i 0 := by
          intro i hi
          exact getD_pySetLast_ne st _ i (by omega)
        have hcnt' : (pySetLast st ((e.n_actions + 1 : ℕ) : ℚ)).getD e.n_dim 0 =
            ((e.n_actions + 1 : ℕ) : ℚ) := by
          unfold pySetLast
          rw [hlast]
          exact getD_set_eq 0 st e.n_dim _ (by omega)
        refine ⟨?_, fun i hi => ?_, ⟨e.n_actions + 1, hlt, ?_⟩, fun _ => ⟨hlt, ?_⟩⟩
        · show (pySetLast st _).length = e.n_dim + 1
          rw [length_pySetLast, hstlen]
        · replace hi : i < e.n_dim := hi
          show 0 ≤ (pySetLast st _).getD i 0 ∧ (pySetLast st _).getD i 0 < twoPi
          rw [hsetD i hi]
          by_cases hai : a.1 = i
          · subst hai
            rw [hst, getD_set_eq 0 _ _ _ (by omega)]
            exact ⟨fmod_nonneg _ _ twoPi_pos, fmod_lt _ _ twoPi_pos⟩
          · rw [hst, getD_set_ne 0 _ _ _ _ hai]
            exact hang i hi
        · exact hcnt'
        · exact hcnt'

theorem run_inv (acts : List Action) (e : Env) (h : Inv e) : Inv (run e acts) := by
  induction acts generalizing e with
  | nil => exact h
  | cons a rest ih => exact ih (step e a).1 (inv_step e a h)

/-- C3: along any action sequence from `reset`, every angle component of the
state stays in `[0, 2π)` and the trailing step-counter component stays in
`[0, length_traj]`. -/
theorem reachable_state_bounds (n d : ℕ) (acts : List Action) :
    (∀ i, i < n → 0 ≤ (run (reset n d) acts).state.getD i 0 ∧
      (run (reset n d) acts).state.getD i 0 < twoPi) ∧
    0 ≤ pyLast (run (reset n d) acts).state ∧
    pyLast (run (reset n d) acts).state ≤ (d : ℚ) := by
  have hp := run_preserves_params acts (reset n d)
  have hn : (run (reset n d) acts).n_dim = n := hp.1
  have hd : (run (reset n d) acts).length_traj = d := hp.2
  obtain ⟨hlen, hang, ⟨k, hk, hcnt⟩, -⟩ := run_inv acts (reset n d) (inv_reset n d)
  rw [hn] at hlen hang
  rw [hd] at hk
  rw [hn] at hcnt
  refine ⟨hang, ?_, ?_⟩
  · unfold pyLast
    rw [hlen]
    simp only [Nat.add_sub_cancel]
    rw [hcnt]
    positivity
  · unfold pyLast
    rw [hlen]
    simp only [Nat.add_sub_cancel]
    rw [hcnt]
    exact_mod_cast hk

/-- Witness for C3: bounds evaluated after one concrete step from reset with
`n_dim = 2`, `length_traj = 1`, including the concrete reached state. -/
theorem reachable_state_bounds_witness :
    (0 ≤ (run (reset 2 1) [(0, 1)]).state.getD 0 0 ∧
      (run (reset 2 1) [(0, 1)]).state.getD 0 0 < twoPi) ∧
    0 ≤ pyLast (run (reset 2 1) [(0, 1)]).state ∧
    pyLast (run (reset 2 1) [(0, 1)]).state ≤ (1 : ℚ) ∧
    (run (reset 2 1) [(0, 1)]).state = [1, 0, 1] := by
  have h := reachable_state_bounds 2 1 [(0, 1)]
  have hst : (run (reset 2 1) [(0, 1)]).state = [1, 0, 1] := by
    show (step (reset 2 1) (0, 1)).1.state = [1, 0, 1]
    have hf : fmod (1 : ℚ) twoPi = 1 := by norm_num [fmod, twoPi]
    simp [step, reset, Env.eos, pySetLast, hf]
  refine ⟨h.1 0 (by decide), h.2.1, ?_, hst⟩
  have := h.2.2
  exact_mod_cast this

/-- C4: `get_parents` returns exactly one parent: for a done trajectory the
state itself paired with the terminal action `(eos, 0.0)`; otherwise the state
with the action's increment subtracted modulo 2π from the acted-on dimension
and the step counter decremented, paired with the supplied action. -/
theorem get_parents_spec (e : Env) (state : List ℚ) (done : Bool) (a : Action) :
    (done = true → get_parents e state done a = (([state], [(e.eos, 0)]), state)) ∧
    (done = false → state.length = e.n_dim + 1 → a.1 < e.n_dim →
      (get_parents e state done a).1 =
        ([pySetLast (state.set a.1 (fmod (state.getD a.1 0 - a.2) twoPi))
            (pyLast state - 1)], [a])) := by
  constructor
  · intro h1
    simp [get_parents, h1]
  · intro h1 hlen ha
    have hlast : pyLast (state.set a.1 (fmod (state.getD a.1 0 - a.2) twoPi)) =
        pyLast state := by
      unfold pyLast
      rw [List.length_set]
      exact getD_set_ne 0 state a.1 (state.length - 1) _ (by omega)
    simp only [get_parents, h1, Bool.false_eq_true, if_false]
    rw [hlast]

/-- Witness for C4: both branches of `get_parents` evaluated concretely. -/
theorem get_parents_spec_witness :
    get_parents (reset 2 1) [0, 0, 1] true (0, 1) =
      (([[0, 0, 1]], [(2, 0)]), [0, 0, 1]) ∧
    (get_parents (reset 2 1) [1, 0, 1] false (0, 1)).1 = ([[0, 0, 0]], [(0, 1)]) := by
  constructor
  · exact (get_parents_spec (reset 2 1) [0, 0, 1] true (0, 1)).1 rfl
  · rw [(get_parents_spec (reset 2 1) [1, 0, 1] false (0, 1)).2 rfl (by decide) (by decide)]
    have hf : fmod (0 : ℚ) twoPi = 0 := by norm_num [fmod, twoPi]
    norm_num [pySetLast, pyLast, hf]

/-- C9: `get_parents` called with an explicit state and `done = False` mutates
the supplied list: the single returned parent is the caller's buffer after the
call, whose acted-on angle has been overwritten with the backward-moved value
and whose counter has been decremented, so the buffer no longer holds its
original value. -/
theorem get_parents_inplace_mutation (e : Env) (state : List ℚ) (a : Action)
    (hlen : state.length = e.n_dim + 1) (ha : a.1 < e.n_dim) :
    (get_parents e state false a).1.1 = [(get_parents e state false a).2] ∧
    (get_parents e state false a).2.getD a.1 0 =
      fmod (state.getD a.1 0 - a.2) twoPi ∧
    pyLast (get_parents e state false a).2 = pyLast state - 1 ∧
    (get_parents e state false a).2 ≠ state := by
  have hgp : get_parents e state false a =
      (([pySetLast (state.set a.1 (fmod (state.getD a.1 0 - a.2) twoPi))
          (pyLast (state.set a.1 (fmod (state.getD a.1 0 - a.2) twoPi)) - 1)], [a]),
        pySetLast (state.set a.1 (fmod (state.getD a.1 0 - a.2) twoPi))
          (pyLast (state.set a.1 (fmod (state.getD a.1 0 - a.2) twoPi)) - 1)) := by
    simp [get_parents]
  set v := fmod (state.getD a.1 0 - a.2) twoPi with hv
  set s1 := state.set a.1 v with hs1
  have hs1len : s1.length = e.n_dim + 1 := by rw [hs1, List.length_set, hlen]
  have hs1last : pyLast s1 = pyLast state := by
    unfold pyLast
    rw [hs1, List.length_set]
    exact getD_set_ne 0 state a.1 (state.length - 1) v (by omega)
  have hlastval : pyLast (pySetLast s1 (pyLast s1 - 1)) = pyLast state - 1 := by
    rw [pyLast_pySetLast s1 _ (by intro hc; rw [hc] at hs1len; simp at hs1len), hs1last]
  refine ⟨?_, ?_, ?_, ?_⟩
  · rw [hgp]
  · rw [hgp]
    show (pySetLast s1 (pyLast s1 - 1)).getD a.1 0 = v
    rw [getD_pySetLast_ne s1 _ a.1 (by omega), hs1, getD_set_eq 0 state a.1 v (by omega)]
  · rw [hgp]
    exact hlastval
  · rw [hgp]
    intro hc
    have h2 : pySetLast s1 (pyLast s1 - 1) = state := hc
    have h3 : pyLast (pySetLast s1 (pyLast s1 - 1)) = pyLast state := by rw [h2]
    rw [hlastval] at h3
    linarith

/-- Witness for C9: the mutated buffer is the returned parent and differs from
the caller's original list. -/
theorem get_parents_inplace_mutation_witness :
    (get_parents (reset 2 1) [1, 0, 1] false (0, 1)).1.1 =
      [(get_parents (reset 2 1) [1, 0, 1] false (0, 1)).2] ∧
    (get_parents (reset 2 1) [1, 0, 1] false (0, 1)).2 ≠ [1, 0, 1] := by
  have h := get_parents_inplace_mutation (reset 2 1) [1, 0, 1] (0, 1)
    (by decide) (by decide)
  exact ⟨h.1, h.2.2.2⟩

theorem zip_map_append_getD (N : List Bool) (Z : List (ℚ × ℚ)) (tl : List Bool)
    (i : ℕ) (d : Bool) (hi : i < N.length) (hiZ : i < Z.length) :
    (((N.zip Z).map (fun p => if p.2.1 = p.2.2 then true else p.1)) ++ tl).getD i d =
      if (Z.get ⟨i, hiZ⟩).1 = (Z.get ⟨i, hiZ⟩).2 then true else N.get ⟨i, hi⟩ := by
  have hml : i < ((N.zip Z).map
      (fun p => if p.2.1 = p.2.2 then true else p.1)).length := by
    rw [List.length_map, List.length_zip]
    omega
  rw [List.getD_eq_getElem _ _ (by rw [List.length_append]; omega)]
  rw [List.getElem_append_left hml]
  rw [List.getElem_map, List.getElem_zip]
  rfl

theorem mask_notdone_getD_lt (n i : ℕ) (hi : i < n) :
    ((List.replicate (n + 1) false).set n true).getD i true = false := by
  rw [replicate_succ_set_last]
  rw [getD_append_left true _ _ i (by simpa using hi)]
  exact getD_replicate true n i false hi

theorem mask_notdone_getD_last (n : ℕ) (d : Bool) :
    ((List.replicate (n + 1) false).set n true).getD n d = true := by
  rw [replicate_succ_set_last]
  have h := getD_append_at_length d (List.replicate n false) true
  rw [List.length_replicate] at h
  exact h

theorem mask_done_getD_last (n : ℕ) (d : Bool) :
    ((List.replicate (n + 1) true).set n false).getD n d = false := by
  rw [replicate_succ_set_last]
  have h := getD_append_at_length d (List.replicate n true) false
  rw [List.length_replicate] at h
  exact h

/-- C7: the backward mask marks the terminal action valid exactly when the
trajectory is done; when not done every non-terminal action is valid and the
terminal action invalid, except that when the number of dimensions whose angle
differs from the recorded source equals the step counter, the dimensions whose
angle equals their source angle are marked invalid (the source's second
inequality `noninit >= state[-1] - 1` is redundant given the equality, as the
spec's open question suspects). -/
theorem backward_mask_spec (e : Env) (state : List ℚ) (done : Bool)
    (hlen : state.length = e.n_dim + 1) :
    (done = true → get_mask_invalid_actions_backward e state done =
      (List.replicate (e.n_dim + 1) true).set e.n_dim false) ∧
    (done = false →
      (get_mask_invalid_actions_backward e state done).getD e.n_dim false = true ∧
      ∀ i, i < e.n_dim →
        (get_mask_invalid_actions_backward e state done).getD i true =
          (decide ((((state.dropLast.zip e.source).filter
              (fun p => p.1 ≠ p.2)).length : ℚ) = pyLast state) &&
            decide (state.getD i 0 = e.source.getD i 0))) := by
  have hdl : state.dropLast.length = e.n_dim := by
    rw [List.length_dropLast, hlen]
    omega
  have hsl : e.source.length = e.n_dim := by simp [Env.source]
  have hZ : (state.dropLast.zip e.source).length = e.n_dim := by
    rw [List.length_zip state.dropLast e.source, hdl, hsl, min_self]
  constructor
  · intro h1
    subst h1
    simp only [get_mask_invalid_actions_backward, if_true]
    split_ifs with hgt hguard
    · rfl
    · -- the override rewrites an all-true-except-terminal mask to itself
      rw [replicate_succ_set_last]
      congr 1
      · refine List.ext_getElem ?_ ?_
        · simp only [List.length_map, List.length_zip, List.length_append,
            List.length_replicate, List.length_cons, List.length_nil, hZ,
            List.length_singleton]
          omega
        · intro i hil hir
          rw [List.length_map, List.length_zip] at hil
          have hi : i < e.n_dim := by
            rw [List.length_append, List.length_replicate] at hil
            rw [hZ] at hil
            omega
          rw [List.getElem_map, List.getElem_zip]
          rw [List.getElem_replicate]
          split
          · rfl
          · rw [List.getElem_append_left (by rw [List.length_replicate]; omega)]
            simp
      · have hl : ((List.replicate e.n_dim true ++ [false]).length - 1) = e.n_dim := by
          rw [List.length_append, List.length_replicate]
          simp
        rw [hl]
        have h := getD_append_at_length true (List.replicate e.n_dim true) false
        rw [List.length_replicate] at h
        rw [h]
    · rfl
  · intro h1
    subst h1
    simp only [get_mask_invalid_actions_backward, Bool.false_eq_true, if_false]
    constructor
    · split_ifs with hgt hguard
      · exact mask_notdone_getD_last e.n_dim false
      · have hml : ((((List.replicate (e.n_dim + 1) false).set e.n_dim true).zip
            (state.dropLast.zip e.source)).map
              (fun p => if p.2.1 = p.2.2 then true else p.1)).length = e.n_dim := by
          rw [List.length_map, List.length_zip, List.length_set,
            List.length_replicate, hZ]
          simp
        have h := getD_append_at_length false
          ((((List.replicate (e.n_dim + 1) false).set e.n_dim true).zip
            (state.dropLast.zip e.source)).map
              (fun p => if p.2.1 = p.2.2 then true else p.1))
          (((List.replicate (e.n_dim + 1) false).set e.n_dim true).getD
            ((((List.replicate (e.n_dim + 1) false).set e.n_dim true)).length - 1) true)
        rw [hml] at h
        rw [h]
        have hlast : (((List.replicate (e.n_dim + 1) false).set e.n_dim true)).length - 1
            = e.n_dim := by
          rw [List.length_set, List.length_replicate]
          simp
        rw [hlast]
        exact mask_notdone_getD_last e.n_dim true
      · exact mask_notdone_getD_last e.n_dim false
    · intro i hi
      have hiN : i < ((List.replicate (e.n_dim + 1) false).set e.n_dim true).length := by
        rw [List.length_set, List.length_replicate]
        omega
      have hiZ : i < (state.dropLast.zip e.source).length := by omega
      split_ifs with hgt hguard
      · rw [mask_notdone_getD_lt e.n_dim i hi]
        rw [decide_eq_false (ne_of_gt hgt)]
        rw [Bool.false_and]
      · rw [zip_map_append_getD _ _ _ i true hiN hiZ]
        have hz : (state.dropLast.zip e.source).get ⟨i, hiZ⟩ =
            (state.getD i 0, e.source.getD i 0) := by
          show (state.dropLast.zip e.source)[i] = _
          rw [List.getElem_zip]
          rw [List.getElem_dropLast]
          rw [← List.getD_eq_getElem state 0 (by omega),
            ← List.getD_eq_getElem e.source 0 (by omega)]
        rw [hz]
        have hNi : ((List.replicate (e.n_dim + 1) false).set e.n_dim true).get
            ⟨i, hiN⟩ = false := by
          show ((List.replicate (e.n_dim + 1) false).set e.n_dim true)[i] = false
          rw [← List.getD_eq_getElem _ true hiN]
          exact mask_notdone_getD_lt e.n_dim i hi
        rw [hNi]
        rw [decide_eq_true hguard.1]
        rw [Bool.true_and]
        by_cases hP : state.getD i 0 = e.source.getD i 0
        · simp [hP]
        · simp [hP]
      · have hne : ¬((((state.dropLast.zip e.source).filter
            (fun p => p.1 ≠ p.2)).length : ℚ) = pyLast state) := by
          intro hc
          exact hguard ⟨hc, by rw [← hc]; linarith⟩
        rw [mask_notdone_getD_lt e.n_dim i hi]
        rw [decide_eq_false hne]
        rw [Bool.false_and]

/-- Witness for C7: backward masks evaluated concretely with `n_dim = 2`,
`length_traj = 1` at a done state and at the state `[1, 0, 1]` where exactly
one dimension differs from the source and the counter equals that count. -/
theorem backward_mask_spec_witness :
    get_mask_invalid_actions_backward (reset 2 1) [0, 0, 1] true =
      [true, true, false] ∧
    (get_mask_invalid_actions_backward (reset 2 1) [1, 0, 1] false).getD 2 false
      = true ∧
    (get_mask_invalid_actions_backward (reset 2 1) [1, 0, 1] false).getD 0 true
      = false ∧
    (get_mask_invalid_actions_backward (reset 2 1) [1, 0, 1] false).getD 1 true
      = true := by
  have h2 := (backward_mask_spec (reset 2 1) [1, 0, 1] false (by decide)).2 rfl
  refine ⟨?_, h2.1, ?_, ?_⟩
  · rw [(backward_mask_spec (reset 2 1) [0, 0, 1] true (by decide)).1 rfl]
    decide
  · rw [h2.2 0 (by decide)]
    decide
  · rw [h2.2 1 (by decide)]
    decide

/-- C5: for policy sampling at temperature 1, the per-row log-probability that
`sample_actions` pairs with a sampled action equals `get_logprobs` evaluated on
the same policy output, the same action, any target state, and the same
invalid-action mask with `is_forward = True` — for every choice of the
library's log-softmax, exponential, von Mises and Bernoulli log-density
functions. -/
theorem sample_logprobs_match_get_logprobs (npd eos : ℕ)
    (lsm : List ℚ → List ℚ) (fexp : ℚ → ℚ) (vmlp : ℚ → ℚ → ℚ → ℚ)
    (blp : ℚ → ℚ → ℚ) (source po state_target : List ℚ)
    (mask : Option (List Bool)) (loginf : ℚ) (dim : ℕ) (angle : ℚ) :
    sample_actions_logprob npd eos lsm fexp vmlp po mask 1 loginf dim angle =
      get_logprobs_one npd eos lsm fexp vmlp blp source true po dim angle
        state_target mask loginf := by
  unfold sample_actions_logprob get_logprobs_one
  simp only [div_one, Bool.or_true, Bool.true_and, Bool.not_true, Bool.and_false,
    Bool.false_eq_true, if_false, add_zero, List.map_id']
  by_cases h : dim = eos
  · simp [h]
  · simp [h]

/-- C6: converting a state to its readable form (angles in degrees plus the
integer step count) and back returns the original state: the angle components
exactly in ideal arithmetic — hence within floating-point tolerance — and the
step counter exactly. -/
theorem readable_roundtrip (state : List ℚ) (k : ℤ)
    (hne : state ≠ []) (hk : pyLast state = (k : ℚ)) :
    readable2state (state2readable state) = state := by
  unfold readable2state state2readable
  simp only
  have hmap : (state.dropLast.map (fun a => a * 180 / piQ)).map
      (fun d => d * piQ / 180) = state.dropLast := by
    rw [List.map_map]
    have hcongr : ∀ a ∈ state.dropLast,
        ((fun d => d * piQ / 180) ∘ (fun a => a * 180 / piQ)) a = id a := by
      intro a _
      show a * 180 / piQ * piQ / 180 = a
      have hp : piQ ≠ 0 := piQ_ne_zero
      field_simp
    rw [List.map_congr_left hcongr, List.map_id]
  have hint : pyInt (pyLast state) = k := by
    rw [hk]
    unfold pyInt
    split_ifs <;> simp
  rw [hmap, hint, ← hk]
  have hlast : pyLast state = state.getLast hne := by
    unfold pyLast
    rw [List.getLast_eq_getElem]
    exact List.getD_eq_getElem state 0 (by
      have := List.length_pos.mpr hne
      omega)
  rw [hlast]
  exact List.dropLast_append_getLast hne

/-- Witness for C6: round trip on the concrete state `[1, 0, 2]`. -/
theorem readable_roundtrip_witness :
    readable2state (state2readable [1, 0, 2]) = [1, 0, 2] :=
  readable_roundtrip [1, 0, 2] 2 (by decide) (by decide)

/-- C8: `set_float_precision` returns the half, single and double dtypes for
16, 32 and 64 and raises `ValueError` for every other precision; the other
utility operations (`set_device`, `torch2np`; `flatten_config` is total by
construction) never raise. -/
theorem set_float_precision_spec :
    set_float_precision 16 = .ok .float16 ∧
    set_float_precision 32 = .ok .float32 ∧
    set_float_precision 64 = .ok .float64 ∧
    (∀ p : ℤ, p ≠ 16 → p ≠ 32 → p ≠ 64 →
      set_float_precision p = .error "Precision must be one of [16, 32, 64]") ∧
    (∀ (d : String) (b : Bool), ∃ s, set_device d b = .ok s) ∧
    (∀ x : ℚ, torch2np x = .ok x) := by
  refine ⟨rfl, rfl, rfl, fun p h1 h2 h3 => ?_, fun d b => ?_, fun x => rfl⟩
  · simp [set_float_precision, h1, h2, h3]
  · unfold set_device
    split_ifs
    · exact ⟨"cuda", rfl⟩
    · exact ⟨"cpu", rfl⟩

/-- Witness for C8: a rejected precision and an accepted one. -/
theorem set_float_precision_spec_witness :
    set_float_precision 7 = .error "Precision must be one of [16, 32, 64]" ∧
    set_float_precision 16 = .ok .float16 :=
  ⟨set_float_precision_spec.2.2.2.1 7 (by decide) (by decide) (by decide),
    set_float_precision_spec.1⟩

end GFlowNet
